import Mathlib

/-!
Verification of the temporal reconciliation engine of `positor`
(`src/positor/models.py`): the Sample Cleaner (`SttWord.reject_outliers`),
the Word Assembler (`SttWords.load_whisper_results`), the Boundary
Classifier (`SttWord.get_override`), the Initial Estimator
(`SttWord.__init__`), the Sequencer (`SttWords._sequence`) and the Splicer
(`SttWords._splice_times`).

The Python floats are modelled as exact rationals (`ℚ`); numpy's
`abs(x - mean) < std` filter (with `std = sqrt(variance)`) is modelled by
the equivalent exact comparison `(x - mean)^2 < variance` (see
`abs_lt_sqrt_iff_sq_lt` below for the justification over `ℝ`).  Python
`assert` failures and raised exceptions are modelled with `Except`:
every fallible operation returns `Except SttError _`.
-/

namespace Positor

/-- The five boundary roles of `WordBoundaryOverride` in `models.py`. -/
inductive WordBoundaryOverride where
  | Undefined
  | LineStart
  | LineEnd
  | Solo
  | Sequencer
deriving DecidableEq

/-- The loud failures of the engine: `assert` statements and the
`RuntimeError` raised by `_sequence`. -/
inductive SttError where
  /-- Failure of `assert len(timestamps) >= 1` in `load_whisper_results`. -/
  | emptyTimestamps
  /-- Python `IndexError` from `text[0]` when a fragment's text is empty. -/
  | emptyFragmentText
  /-- The `raise RuntimeError("Resequencing is not supported.")` in `_sequence`. -/
  | resequencing
  /-- Failure of `assert (word.number == line_of_words[-1].number)` in `_sequence`. -/
  | lineEndNotLast
  /-- Failure of `assert None not in (next, previous)` in `_sequence`. -/
  | undefinedNotSandwiched
  /-- Failure of `assert previous is not None and next is not None` in `_splice_times`. -/
  | spliceAnchorMissing
deriving DecidableEq

/-- Exact-rational `math.fabs`. -/
def fabs (q : ℚ) : ℚ := if q < 0 then -q else q

/-- Arithmetic mean, as `np.mean`.  (On `[]` numpy yields NaN; here the junk
value `0` results, and no theorem below depends on that case.) -/
def mean (l : List ℚ) : ℚ := l.sum / (l.length : ℚ)

/-- Population variance, the square of `np.std`. -/
def variance (l : List ℚ) : ℚ :=
  ((l.map fun x => (x - mean l) * (x - mean l)).sum) / (l.length : ℚ)

/-- The Sample Cleaner `SttWord.reject_outliers(data, m=1)`:
`data[abs(data - np.mean(data)) < m * np.std(data)]`.
Since `np.std` is the square root of the population variance and both sides
of the comparison are nonnegative, `abs(x - mean) < std` is equivalent to
`(x - mean)^2 < variance`, which is exact over `ℚ`. -/
def reject_outliers (l : List ℚ) : List ℚ :=
  l.filter fun x => decide ((x - mean l) * (x - mean l) < variance l)

/-- Insert into a sorted list (helper for `median`). -/
def insertSorted (x : ℚ) : List ℚ → List ℚ
  | [] => [x]
  | y :: ys => if x ≤ y then x :: y :: ys else y :: insertSorted x ys

/-- Insertion sort (helper for `median`). -/
def sortQ (l : List ℚ) : List ℚ := l.foldr insertSorted []

/-- Numpy-style median (`np.median`): middle element of the sorted list, or the average of the
two middle elements.  (On `[]` numpy yields NaN; here the junk value `0`
results, and no theorem below depends on that case.) -/
def median (l : List ℚ) : ℚ :=
  let s := sortQ l
  let n := s.length
  if n = 0 then 0
  else if n % 2 = 1 then s.getD (n / 2) 0
  else (s.getD (n / 2 - 1) 0 + s.getD (n / 2) 0) / 2

/-- One whisper line segment (start, end, number): the `SttLine` class. -/
structure SttLine where
  start : ℚ
  end_ : ℚ
  number : ℕ
deriving DecidableEq

/-- One raw whisper word fragment: an entry of a segment's
`unstable_word_timestamps` list, with fields `word` and `timestamps`. -/
structure SttFragment where
  word : List Char
  timestamps : List ℚ

/-- One whisper line segment record as consumed by
`load_whisper_results`: `start`, `end` and `unstable_word_timestamps`. -/
structure SttSegment where
  start : ℚ
  end_ : ℚ
  unstable_word_timestamps : List SttFragment

/-- The state of an `SttWord`.  The owning line is flattened into the word
(`line_start`, `line_end`, `line_number`), `np_timestamps` holds the
outlier-cleaned samples, and `word_number` is the global index used for
neighbor lookup. -/
structure Word where
  text : List Char
  word_number : ℕ
  line_start : ℚ
  line_end : ℚ
  line_number : ℕ
  np_timestamps : List ℚ
  start : ℚ
  end_ : ℚ
  boundary_override : WordBoundaryOverride
  boundary_overidden : Bool

instance : Inhabited Word :=
  ⟨{ text := [], word_number := 0, line_start := 0, line_end := 0, line_number := 0,
     np_timestamps := [], start := 0, end_ := 0,
     boundary_override := WordBoundaryOverride.Undefined, boundary_overidden := false }⟩

/-- Boundary update with audit trail: `SttWord.update_boundary`. -/
def update_boundary (w : Word) (s e : ℚ) (ov : WordBoundaryOverride) : Word :=
  { w with boundary_override := ov, boundary_overidden := true, start := s, end_ := e }

/-- The Boundary Classifier `SttWord.get_override`, a pure function of the
fragment's position in its line. -/
def get_override (j count : ℕ) : WordBoundaryOverride :=
  if j = 0 ∧ count = 1 then WordBoundaryOverride.Solo
  else if j = 0 then WordBoundaryOverride.LineStart
  else if j = count - 1 then WordBoundaryOverride.LineEnd
  else WordBoundaryOverride.Undefined

/-- The whitespace characters stripped by Python's `str.strip()`
(restricted to the ASCII range, which covers every theorem below). -/
def isPySpace (c : Char) : Bool :=
  c = ' ' || c = '\t' || c = '\n' || c = '\x0d' || c = '\x0b' || c = '\x0c'

/-- Python `text.strip()`: drop whitespace from both ends. -/
def pyStrip (t : List Char) : List Char :=
  ((t.dropWhile isPySpace).reverse.dropWhile isPySpace).reverse

/-- Word construction `SttWord.__init__`: strip the text, clean the samples, and run the
Initial Estimator on the role.  The `Sequencer` case is unreachable from
`load_whisper_results` (`get_override` never yields it; Python would raise
`UnboundLocalError` there), so its value here is junk. -/
def sttword_init (text : List Char) (timestamps : List ℚ) (number : ℕ) (line : SttLine)
    (ov : WordBoundaryOverride) : Word :=
  let cleaned := reject_outliers timestamps
  let se : ℚ × ℚ :=
    match ov with
    | WordBoundaryOverride.LineStart => (line.start, line.start)
    | WordBoundaryOverride.LineEnd => (line.end_, line.end_)
    | WordBoundaryOverride.Solo => (line.start, line.end_)
    | WordBoundaryOverride.Undefined => (median cleaned, median cleaned)
    | WordBoundaryOverride.Sequencer => (0, 0)
  { text := pyStrip text, word_number := number, line_start := line.start,
    line_end := line.end_, line_number := line.number, np_timestamps := cleaned,
    start := se.1, end_ := se.2, boundary_override := ov,
    boundary_overidden := if ov = WordBoundaryOverride.Undefined then false else true }

/-- Continuation merge `SttWord.extend`: append the continuation text verbatim; a `LineEnd`
override additionally forces the word's boundary to its own line's end.
The `timestamps` argument is accepted and ignored, as in the source. -/
def extend (w : Word) (text : List Char) (timestamps : List ℚ)
    (ov : WordBoundaryOverride) : Word :=
  let w2 := { w with text := w.text ++ text }
  if ov = WordBoundaryOverride.LineEnd then
    update_boundary w2 w2.line_end w2.line_end WordBoundaryOverride.LineEnd
  else w2

/-- Neighbor lookup `SttWord.next`: the word at global index `word_number + 1`, if any. -/
def next (ws : List Word) (w : Word) : Option Word :=
  if w.word_number + 1 < ws.length then some (ws.getD (w.word_number + 1) default) else none

/-- Neighbor lookup `SttWord.previous`: the word at global index `word_number - 1`, if any. -/
def previous (ws : List Word) (w : Word) : Option Word :=
  if w.word_number > 0 then some (ws.getD (w.word_number - 1) default) else none

/-- Containment check `SttWord.line_contained`: `line.start <= start and line.end >= end`. -/
def line_contained (w : Word) : Bool :=
  decide (w.line_start ≤ w.start) && decide (w.line_end ≥ w.end_)

/-- Containment check `SttWord.neighbor_contained`: the word's start falls between its
immediate neighbors' starts (unconstrained on a missing side). -/
def neighbor_contained (ws : List Word) (w : Word) : Bool :=
  match next ws w, previous ws w with
  | none, none => true
  | none, some p => decide (w.start ≥ p.start)
  | some n, none => decide (w.start ≤ n.start)
  | some n, some p => decide (w.start ≥ p.start) && decide (w.start ≤ n.start)

/-- The assignment loop of `_splice_times`: `cursor += incremental_width;
word.update_boundary(cursor, cursor, Sequencer)` over the run (given by the
positions of its words in the sequence). -/
def splice_go (ws : List Word) (cursor step : ℚ) : List ℕ → List Word
  | [] => ws
  | p :: rest =>
      splice_go
        (ws.set p (update_boundary (ws.getD p default) (cursor + step) (cursor + step)
          WordBoundaryOverride.Sequencer))
        (cursor + step) step rest

/-- The Splicer `SttWords._splice_times`.  No-op on an empty run;
otherwise both bounding neighbors must exist, and the run is smeared evenly
across `[start_boundary, start_boundary + width]`. -/
def splice_times (ws : List Word) (run : List ℕ) : Except SttError (List Word) :=
  match run with
  | [] => Except.ok ws
  | p0 :: _ =>
    let w0 := ws.getD p0 default
    let wLast := ws.getD (run.getLastD p0) default
    match previous ws w0, next ws wLast with
    | some prev, some nxt =>
        let start_boundary := max prev.start prev.end_
        let end_boundary := max nxt.start nxt.end_
        let boundary_width := fabs (end_boundary - start_boundary)
        let incremental_width := boundary_width / ((run.length : ℚ) + 1)
        Except.ok (splice_go ws start_boundary incremental_width run)
    | _, _ => Except.error SttError.spliceAnchorMissing

/-- The inner word loop of `_sequence` over one line's words (`lastPos` is
the position of the last word of the line, for the `LineEnd` assertion).
Words are addressed by their position in `ws`; neighbor lookups go through
the stored `word_number`, as in the source. -/
def sequence_go (ws : List Word) (cursor : Option ℚ) (rejects : List ℕ) (lastPos : ℕ) :
    List ℕ → Except SttError (List Word × Option ℚ × List ℕ)
  | [] => Except.ok (ws, cursor, rejects)
  | i :: rest =>
    let w := ws.getD i default
    let c : ℚ := cursor.getD w.line_start
    match w.boundary_override with
    | WordBoundaryOverride.Sequencer => Except.error SttError.resequencing
    | WordBoundaryOverride.LineStart | WordBoundaryOverride.Solo =>
        if line_contained w && neighbor_contained ws w && decide (w.start ≥ c) then
          sequence_go ws (some w.start) rejects lastPos rest
        else
          sequence_go ws (some c) rejects lastPos rest
    | WordBoundaryOverride.LineEnd =>
        if w.word_number = (ws.getD lastPos default).word_number then
          Except.ok (ws, some c, rejects)
        else Except.error SttError.lineEndNotLast
    | WordBoundaryOverride.Undefined =>
        match next ws w, previous ws w with
        | some _, some _ =>
          if line_contained w && neighbor_contained ws w && decide (w.start ≥ c) then
            match splice_times ws rejects with
            | Except.ok ws2 => sequence_go ws2 (some w.start) [] lastPos rest
            | Except.error e => Except.error e
          else
            if rejects.isEmpty
                || decide (w.word_number = (ws.getD (rejects.getLastD 0) default).word_number + 1) then
              sequence_go ws (some c) (rejects ++ [i]) lastPos rest
            else
              match splice_times ws rejects with
              | Except.ok ws2 => sequence_go ws2 (some c) [i] lastPos rest
              | Except.error e => Except.error e
        | _, _ => Except.error SttError.undefinedNotSandwiched

/-- The outer line loop of `_sequence`: run the word loop on each line and
flush any remaining rejects through the Splicer; the cursor carries across
lines without reset. -/
def sequence_lines (ws : List Word) (cursor : Option ℚ) :
    List (List ℕ) → Except SttError (List Word × Option ℚ)
  | [] => Except.ok (ws, cursor)
  | g :: gs =>
    match sequence_go ws cursor [] (g.getLastD 0) g with
    | Except.ok (ws2, c2, rj) =>
      match splice_times ws2 rj with
      | Except.ok ws3 => sequence_lines ws3 c2 gs
      | Except.error e => Except.error e
    | Except.error e => Except.error e

/-- Grouping of positions in the style of `itertools.groupby` of positions by a key: maximal runs
of consecutive positions with equal key. -/
def groupByKey (key : ℕ → ℕ) : List ℕ → List (List ℕ)
  | [] => []
  | i :: rest =>
    match groupByKey key rest with
    | [] => [[i]]
    | [] :: gs => [[i]] ++ gs
    | (j :: g) :: gs =>
      if key i = key j then (i :: j :: g) :: gs else [i] :: (j :: g) :: gs

/-- The grouping step of `_sequence`: positions of `ws` grouped by
`line_number` (computed once, before any mutation, as in the source). -/
def group_by_line (ws : List Word) : List (List ℕ) :=
  groupByKey (fun i => (ws.getD i default).line_number) (List.range ws.length)

/-- The Sequencer `SttWords._sequence`, with cursor initially unset. -/
def sequence (ws : List Word) : Except SttError (List Word) :=
  match sequence_lines ws none (group_by_line ws) with
  | Except.ok (ws2, _) => Except.ok ws2
  | Except.error e => Except.error e

/-- One fragment step of the Word Assembler (the body of the inner loop of
`load_whisper_results`): check the timestamps assertion, then either start
a new word (leading `' '`, or leading `'.'` with more text behind it),
extend the current word, or — with no current word — silently skip. -/
def assemble_step (ws : List Word) (current : Option ℕ) (line : SttLine) (j count : ℕ)
    (frag : SttFragment) : Except SttError (List Word × Option ℕ) :=
  if frag.timestamps = [] then Except.error SttError.emptyTimestamps
  else
    match frag.word with
    | [] => Except.error SttError.emptyFragmentText
    | ch :: rest =>
      if ch = ' ' ∨ (ch = '.' ∧ rest ≠ []) then
        Except.ok (ws ++ [sttword_init frag.word frag.timestamps ws.length line
          (get_override j count)], some ws.length)
      else
        match current with
        | some cw =>
            Except.ok (ws.set cw (extend (ws.getD cw default) frag.word frag.timestamps
              (get_override j count)), some cw)
        | none => Except.ok (ws, none)

/-- The inner fragment loop of `load_whisper_results` over one line. -/
def assemble_frags (ws : List Word) (current : Option ℕ) (line : SttLine) (count j : ℕ) :
    List SttFragment → Except SttError (List Word × Option ℕ)
  | [] => Except.ok (ws, current)
  | f :: fs =>
    match assemble_step ws current line j count f with
    | Except.ok (ws2, c2) => assemble_frags ws2 c2 line count (j + 1) fs
    | Except.error e => Except.error e

/-- The outer segment loop of `load_whisper_results`.  The `current` word
state is threaded through without reset between segments, as in the
source (where `current_word` is initialized once, before the loop). -/
def assemble_segs (ws : List Word) (current : Option ℕ) (i : ℕ) :
    List SttSegment → Except SttError (List Word × Option ℕ)
  | [] => Except.ok (ws, current)
  | s :: ss =>
    match assemble_frags ws current ⟨s.start, s.end_, i⟩ s.unstable_word_timestamps.length 0
        s.unstable_word_timestamps with
    | Except.ok (ws2, c2) => assemble_segs ws2 c2 (i + 1) ss
    | Except.error e => Except.error e

/-- Full pipeline `SttWords.load_whisper_results`: assemble all segments, then sequence. -/
def load_whisper_results (segments : List SttSegment) : Except SttError (List Word) :=
  match assemble_segs [] none 0 segments with
  | Except.ok (ws, _) => sequence ws
  | Except.error e => Except.error e

/-- The spec's `correction_applied` diagnostic flag: set exactly when the
Splicer has rewritten the word, which the source records by setting the
boundary override to the internal `Sequencer` marker via
`update_boundary`.  (The source's `_word_boundary_overidden` bool instead
records any non-`Undefined` override, including the initial `LineStart` /
`LineEnd` / `Solo` classification.) -/
def correction_applied (w : Word) : Bool :=
  w.boundary_override = WordBoundaryOverride.Sequencer

/-- Anchor fidelity of one word: a `LineStart`-role word sits exactly at
its line's start, a `LineEnd`-role word exactly at its line's end, and
neither carries a Splicer correction. -/
def anchor_ok (w : Word) : Prop :=
  (w.boundary_override = WordBoundaryOverride.LineStart →
    correction_applied w = false ∧ w.start = w.line_start ∧ w.end_ = w.line_start) ∧
  (w.boundary_override = WordBoundaryOverride.LineEnd →
    correction_applied w = false ∧ w.start = w.line_end ∧ w.end_ = w.line_end)

/-- Shorthand for the words produced by a successful pipeline run (used by
the concrete scenarios below). -/
def pipeEval (segs : List SttSegment) : List Word :=
  (load_whisper_results segs).toOption.getD []

/-- Two overlapping lines, all fragments regular (leading space, three
non-degenerate samples each): line 1 on `[0, 10]`, line 2 on `[3, 8]`. -/
def segs_two_lines : List SttSegment :=
  [⟨0, 10, [⟨[' ', 'a'], [0, 1, 2]⟩, ⟨[' ', 'b'], [4, 5, 6]⟩, ⟨[' ', 'c'], [1, 2, 3]⟩]⟩,
   ⟨3, 8, [⟨[' ', 'd'], [4, 5, 6]⟩, ⟨[' ', 'e'], [5, 6, 7]⟩, ⟨[' ', 'f'], [1, 2, 3]⟩]⟩]

/-- Two overlapping lines where line 2 opens with a continuation fragment,
so line 2's interior word is rejected against the previous line's anchor
and spliced between anchors at `10` (left) and `8` (right). -/
def segs_backward_splice : List SttSegment :=
  [⟨0, 10, [⟨[' ', 'a'], [0, 1, 2]⟩, ⟨[' ', 'b'], [4, 5, 6]⟩, ⟨[' ', 'c'], [1, 2, 3]⟩]⟩,
   ⟨3, 8, [⟨[','], [1, 2, 3]⟩, ⟨[' ', 'e'], [3, 4, 5]⟩, ⟨[' ', 'f'], [1, 2, 3]⟩]⟩]

/-- One line whose first fragment is a continuation (no leading space)
arriving before any word exists. -/
def segs_orphan_continuation : List SttSegment :=
  [⟨0, 10, [⟨['x'], [1, 2, 3]⟩, ⟨[' ', 'b'], [4, 5, 6]⟩]⟩]

/-- A single regular two-word line on `[0, 10]` (for the anchor-fidelity
witness). -/
def segs_anchor_line : List SttSegment :=
  [⟨0, 10, [⟨[' ', 'a'], [1, 2, 3]⟩, ⟨[' ', 'b'], [4, 5, 6]⟩]⟩]

/-- A one-word line followed by a line holding only a continuation
fragment. -/
def segs_cross_line_merge : List SttSegment :=
  [⟨0, 10, [⟨[' ', 'a'], [1, 2, 3]⟩]⟩, ⟨3, 8, [⟨[','], [4, 5, 6]⟩]⟩]

/-- One line whose first fragment is a continuation and whose second word
is therefore the first word of the whole sequence with `Undefined` role: a
reject run at the very start of the sequence, with no left anchor. -/
def segs_leading_reject : List SttSegment :=
  [⟨0, 10, [⟨['x'], [1, 2, 3]⟩, ⟨[' ', 'b'], [4, 5, 6]⟩, ⟨[' ', 'c'], [1, 2, 3]⟩]⟩]

/-- A crafted word carrying the internal `Sequencer` role, fed back as
Sequencer input. -/
def word_sequencer_input : Word :=
  { text := ['q'], word_number := 0, line_start := 0, line_end := 10, line_number := 0,
    np_timestamps := [1], start := 1, end_ := 1,
    boundary_override := WordBoundaryOverride.Sequencer, boundary_overidden := true }

/-- A crafted `LineEnd`-role word that is not last in its line. -/
def word_line_end_first : Word :=
  { text := ['r'], word_number := 0, line_start := 0, line_end := 10, line_number := 0,
    np_timestamps := [1], start := 1, end_ := 1,
    boundary_override := WordBoundaryOverride.LineEnd, boundary_overidden := true }

/-- A crafted interior word used to populate crafted sequences. -/
def word_interior : Word :=
  { text := ['s'], word_number := 1, line_start := 0, line_end := 10, line_number := 0,
    np_timestamps := [2], start := 2, end_ := 2,
    boundary_override := WordBoundaryOverride.Undefined, boundary_overidden := false }

/-- A crafted left-anchor word at timestamp `1` (for direct Splicer runs). -/
def word_anchor_left : Word :=
  { text := ['p'], word_number := 0, line_start := 0, line_end := 10, line_number := 0,
    np_timestamps := [1], start := 1, end_ := 1,
    boundary_override := WordBoundaryOverride.Undefined, boundary_overidden := false }

/-- A crafted right-anchor word at timestamp `5` (for direct Splicer runs). -/
def word_anchor_right : Word :=
  { text := ['n'], word_number := 2, line_start := 0, line_end := 10, line_number := 0,
    np_timestamps := [5], start := 5, end_ := 5,
    boundary_override := WordBoundaryOverride.Undefined, boundary_overidden := false }

/-- A crafted single `LineStart` word at start `7` on line `[0, 10]` (for
the cursor-monotonicity witness). -/
def word_line_start_late : Word :=
  { text := ['w'], word_number := 0, line_start := 0, line_end := 10, line_number := 0,
    np_timestamps := [7], start := 7, end_ := 7,
    boundary_override := WordBoundaryOverride.LineStart, boundary_overidden := true }

/-- Justification of the exact-rational outlier filter: for nonnegative
`s`, `|d| < sqrt s` is equivalent to `d^2 < s` over the reals, so the
source's `abs(x - mean) < std` test coincides with the `(x - mean)^2 <
variance` test of `reject_outliers` above. -/
theorem abs_lt_sqrt_iff_sq_lt (d s : ℝ) : |d| < Real.sqrt s ↔ d ^ 2 < s := by
  rw [show d ^ 2 = |d| ^ 2 by rw [sq_abs]]
  exact Real.lt_sqrt (abs_nonneg d)

/-- List helper: `getD` after `set` at the same (in-bounds) position. -/
theorem getD_set_self {α : Type} (l : List α) (i : ℕ) (v d : α) (h : i < l.length) :
    (l.set i v).getD i d = v := by
  induction l generalizing i with
  | nil => simp at h
  | cons a l ih =>
    cases i with
    | zero => simp [List.set]
    | succ n =>
      simp only [List.set, List.getD_cons_succ]
      exact ih n (by simpa using h)

/-- List helper: `getD` after `set` at a different position. -/
theorem getD_set_ne {α : Type} (l : List α) {i j : ℕ} (v d : α) (h : i ≠ j) :
    (l.set i v).getD j d = l.getD j d := by
  induction l generalizing i j with
  | nil => simp [List.set]
  | cons a l ih =>
    cases i with
    | zero =>
      cases j with
      | zero => exact absurd rfl h
      | succ m => simp [List.set]
    | succ n =>
      cases j with
      | zero => simp [List.set]
      | succ m =>
        simp only [List.set, List.getD_cons_succ]
        exact ih (fun hnm => h (by rw [hnm]))

/-- List helper: a `getD` value is a member or the default. -/
theorem getD_mem_or_eq {α : Type} (l : List α) (i : ℕ) (d : α) :
    l.getD i d ∈ l ∨ l.getD i d = d := by
  induction l generalizing i with
  | nil => simp
  | cons a l ih =>
    cases i with
    | zero => simp
    | succ n =>
      rcases ih n with h | h
      · exact Or.inl (List.mem_cons_of_mem a (by simpa [List.getD_cons_succ] using h))
      · exact Or.inr (by simpa [List.getD_cons_succ] using h)

/-- List helper: `getD` at the length of the prefix of an append. -/
theorem getD_concat_self {α : Type} (l : List α) (w d : α) :
    (l ++ [w]).getD l.length d = w := by
  induction l with
  | nil => rfl
  | cons a l ih =>
    simp only [List.cons_append, List.length_cons, List.getD_cons_succ]
    exact ih

/-- List helper: an in-bounds `getD` value is a member. -/
theorem getD_mem_of_lt {α : Type} (l : List α) (i : ℕ) (d : α) (h : i < l.length) :
    l.getD i d ∈ l := by
  induction l generalizing i with
  | nil => simp at h
  | cons a l ih =>
    cases i with
    | zero => simp
    | succ n =>
      simp only [List.getD_cons_succ]
      exact List.mem_cons_of_mem a (ih n (by simpa using h))

/-- The Splicer's assignment loop leaves positions outside the run
untouched. -/
theorem splice_go_getD_not_mem (run : List ℕ) : ∀ (ws : List Word) (c s : ℚ) (k : ℕ),
    k ∉ run → (splice_go ws c s run).getD k default = ws.getD k default := by
  induction run with
  | nil => intro ws c s k _; rfl
  | cons p rest ih =>
    intro ws c s k hk
    rw [splice_go, ih _ _ _ _ (fun h => hk (List.mem_cons_of_mem p h))]
    exact getD_set_ne ws _ _ (fun h => hk (h ▸ List.mem_cons_self p rest))

/-- The Splicer's assignment loop, elementwise: with a strictly increasing
in-bounds run, the word at the run's `j`-th position receives the boundary
`c + (j+1) * s` (cursor plus `j+1` increments), marked `Sequencer`. -/
theorem splice_go_spec (run : List ℕ) : ∀ (ws : List Word) (c s : ℚ),
    List.Pairwise (· < ·) run → (∀ p ∈ run, p < ws.length) →
    ∀ j, j < run.length →
      (splice_go ws c s run).getD (run.getD j 0) default =
        update_boundary (ws.getD (run.getD j 0) default)
          (c + ((j : ℚ) + 1) * s) (c + ((j : ℚ) + 1) * s)
          WordBoundaryOverride.Sequencer := by
  induction run with
  | nil => intro ws c s _ _ j hj; simp at hj
  | cons p rest ih =>
    intro ws c s hpw hlt j hj
    have hpnotin : p ∉ rest := fun hmem =>
      absurd ((List.pairwise_cons.mp hpw).1 p hmem) (lt_irrefl p)
    cases j with
    | zero =>
      rw [splice_go]
      simp only [List.getD_cons_zero]
      rw [splice_go_getD_not_mem rest _ _ _ _ hpnotin,
        getD_set_self ws p _ _ (hlt p (List.mem_cons_self p rest))]
      norm_num
    | succ n =>
      rw [splice_go]
      simp only [List.getD_cons_succ]
      have hlt2 : ∀ q ∈ rest, q < (ws.set p (update_boundary (ws.getD p default)
          (c + s) (c + s) WordBoundaryOverride.Sequencer)).length := by
        intro q hq
        rw [List.length_set]
        exact hlt q (List.mem_cons_of_mem p hq)
      have := ih _ (c + s) s (List.pairwise_cons.mp hpw).2 hlt2 n (by simpa using hj)
      rw [this]
      have hmem : rest.getD n 0 ∈ rest :=
        getD_mem_of_lt rest n 0 (by simpa using hj)
      have hne : p ≠ rest.getD n 0 := fun h => hpnotin (h ▸ hmem)
      rw [getD_set_ne ws _ _ hne]
      have harith : c + s + ((n : ℚ) + 1) * s = c + ((n + 1 : ℕ) + (1 : ℚ)) * s := by
        push_cast
        ring
      rw [harith]

/-- C1: on an all-identical sample list (population stdev `0`) the Sample
Cleaner returns the empty list — not, as the spec requires, all samples —
so the word's cleaned sample set (`np_timestamps`) is empty and its median
is numpy's NaN rather than the common sample value. -/
theorem cleaner_returns_empty_on_zero_stdev :
    variance [(1 : ℚ), 1] = 0 ∧
    reject_outliers [(1 : ℚ), 1] = [] ∧
    (sttword_init [' ', 'w'] [1, 1] 0 ⟨0, 10, 0⟩
      WordBoundaryOverride.Undefined).np_timestamps = [] := by
  refine ⟨?_, ?_, ?_⟩ <;>
  norm_num +decide [sttword_init, reject_outliers, mean, variance, pyStrip, isPySpace,
    median, sortQ, insertSorted]

/-- C5 counterexample: the sample list `[1, 2, 3]` is non-degenerate
(nonzero variance), yet cleaning is not idempotent on it: one pass keeps
only `[2]`, and a second pass empties it. -/
theorem cleaner_idempotence_fails :
    variance [(1 : ℚ), 2, 3] ≠ 0 ∧
    reject_outliers [(1 : ℚ), 2, 3] = [2] ∧
    reject_outliers (reject_outliers [(1 : ℚ), 2, 3]) ≠ reject_outliers [(1 : ℚ), 2, 3] := by
  refine ⟨?_, ?_, ?_⟩ <;>
  norm_num +decide [reject_outliers, mean, variance]

/-- C5 amended: re-cleaning only removes samples — `clean (clean samples)`
is always a sublist (order-preserving subsequence) of `clean samples`;
exact idempotence can fail even on non-degenerate inputs. -/
theorem cleaner_reclean_sublist (l : List ℚ) :
    (reject_outliers (reject_outliers l)).Sublist (reject_outliers l) := by
  unfold reject_outliers
  exact List.filter_sublist _

/-- C3 amended: the Splicer distributes a run of `k` rejected words evenly
with increment `|b - a| / (k + 1)` — the absolute width, starting at the
left anchor value `a = max prev.start prev.end` and stepping by the `j`-th
multiple for the `j`-th (0-indexed) run member — and marks each spliced
word with the `Sequencer` override (the spec's `correction_applied`).
When `b >= a` this is exactly the spec's `a + i*(b-a)/(k+1)`. -/
theorem splice_even_distribution
    (ws ws' : List Word) (run : List ℕ) (prev nxt : Word)
    (hpw : List.Pairwise (· < ·) run)
    (hlt : ∀ p ∈ run, p < ws.length)
    (hprev : previous ws (ws.getD (run.headD 0) default) = some prev)
    (hnext : next ws (ws.getD (run.getLastD (run.headD 0)) default) = some nxt)
    (hne : run ≠ [])
    (h : splice_times ws run = Except.ok ws') :
    ∀ j, j < run.length →
      (ws'.getD (run.getD j 0) default).start =
        max prev.start prev.end_ +
          ((j : ℚ) + 1) * (fabs (max nxt.start nxt.end_ - max prev.start prev.end_) /
            ((run.length : ℚ) + 1)) ∧
      (ws'.getD (run.getD j 0) default).end_ =
        max prev.start prev.end_ +
          ((j : ℚ) + 1) * (fabs (max nxt.start nxt.end_ - max prev.start prev.end_) /
            ((run.length : ℚ) + 1)) ∧
      correction_applied (ws'.getD (run.getD j 0) default) = true := by
  intro j hj
  cases run with
  | nil => exact absurd rfl hne
  | cons p0 rest =>
    simp only [splice_times, List.headD_cons] at h hprev hnext
    rw [hprev, hnext] at h
    simp only [Except.ok.injEq] at h
    subst h
    rw [splice_go_spec (p0 :: rest) ws _ _ hpw hlt j hj]
    simp [update_boundary, correction_applied]

/-- C3 amended, witness: splicing the single-element run `[1]` between
anchors at `1` and `5` lands the word at `1 + 4/2 = 3`, marked corrected. -/
theorem splice_even_distribution_witness :
    (((splice_times [word_anchor_left, word_interior, word_anchor_right] [1]).toOption.getD
        []).getD 1 default).start = 3 ∧
    correction_applied
      (((splice_times [word_anchor_left, word_interior, word_anchor_right] [1]).toOption.getD
        []).getD 1 default) = true := by
  have h : splice_times [word_anchor_left, word_interior, word_anchor_right] [1] =
      Except.ok ((splice_times [word_anchor_left, word_interior, word_anchor_right]
        [1]).toOption.getD []) := by
    norm_num +decide [splice_times, splice_go, update_boundary, next, previous, fabs,
      max_def, word_anchor_left, word_interior, word_anchor_right, List.getD, List.getLastD,
      Except.toOption]
  have hmain := splice_even_distribution
    [word_anchor_left, word_interior, word_anchor_right]
    ((splice_times [word_anchor_left, word_interior, word_anchor_right] [1]).toOption.getD [])
    [1] word_anchor_left word_anchor_right
    (by simp)
    (by simp [word_anchor_left, word_interior, word_anchor_right])
    (by norm_num +decide [previous, word_anchor_left, word_interior, word_anchor_right,
      List.getD])
    (by norm_num +decide [next, word_anchor_left, word_interior, word_anchor_right,
      List.getD])
    (by simp)
    h 0 (by simp)
  obtain ⟨h1, _, h3⟩ := hmain
  simp only [List.getD_cons_zero] at h1 h3
  refine ⟨?_, h3⟩
  rw [h1]
  norm_num +decide [word_anchor_left, word_anchor_right, fabs, max_def]

/-- C3 counterexample: in a pipeline run where the right anchor (`8`) lies
before the left anchor (`10`), the spliced word is placed at
`a + i*|b-a|/(k+1) = 11`, not at the spec's `a + i*(b-a)/(k+1) = 9`. -/
theorem splice_backward_anchor_counterexample :
    (load_whisper_results segs_backward_splice).isOk = true ∧
    (pipeEval segs_backward_splice).map (fun w => w.start) = [0, 5, 10, 11, 8] ∧
    ((pipeEval segs_backward_splice).getD 2 default).start = 10 ∧
    ((pipeEval segs_backward_splice).getD 2 default).end_ = 10 ∧
    ((pipeEval segs_backward_splice).getD 4 default).start = 8 ∧
    ((pipeEval segs_backward_splice).getD 4 default).end_ = 8 ∧
    ((pipeEval segs_backward_splice).getD 3 default).boundary_override =
      WordBoundaryOverride.Sequencer ∧
    ((pipeEval segs_backward_splice).getD 3 default).start ≠ 10 + ((8 : ℚ) - 10) / (1 + 1) := by
  refine ⟨?_, ?_, ?_, ?_, ?_, ?_, ?_, ?_⟩ <;>
  norm_num +decide [segs_backward_splice, pipeEval, load_whisper_results, assemble_segs,
    assemble_frags, assemble_step, sttword_init, extend, update_boundary, get_override,
    reject_outliers, mean, variance, median, sortQ, insertSorted, pyStrip, isPySpace,
    sequence, group_by_line, groupByKey, sequence_lines, sequence_go, splice_times,
    splice_go, next, previous, line_contained, neighbor_contained, fabs, max_def,
    List.range_succ, Except.isOk, Except.toBool, List.getD, List.getLastD]

/-- C2 counterexample: on two overlapping lines (all fragments regular),
the final sequence of word starts is `[0, 5, 10, 3, 6, 8]`: the second
line's `LineStart` word keeps `start = 3` although its predecessor (the
first line's `LineEnd` word) sits at `10`, so adjacent-word monotonicity
fails after the full pipeline. -/
theorem sequencer_monotonicity_counterexample :
    (load_whisper_results segs_two_lines).isOk = true ∧
    (pipeEval segs_two_lines).map (fun w => w.start) = [0, 5, 10, 3, 6, 8] ∧
    ((pipeEval segs_two_lines).getD 3 default).start <
      ((pipeEval segs_two_lines).getD 2 default).start := by
  refine ⟨?_, ?_, ?_⟩ <;>
  norm_num +decide [segs_two_lines, pipeEval, load_whisper_results, assemble_segs,
    assemble_frags, assemble_step, sttword_init, extend, update_boundary, get_override,
    reject_outliers, mean, variance, median, sortQ, insertSorted, pyStrip, isPySpace,
    sequence, group_by_line, groupByKey, sequence_lines, sequence_go, splice_times,
    splice_go, next, previous, line_contained, neighbor_contained, fabs, max_def,
    List.range_succ, Except.isOk, Except.toBool, List.getD, List.getLastD]

/-- Cursor monotonicity of the Sequencer's inner word loop: once the
cursor holds a value, it only ever advances. -/
theorem sequence_go_cursor_mono (idxs : List ℕ) :
    ∀ (ws : List Word) (cursor : Option ℚ) (rejects : List ℕ) (lastPos : ℕ)
      (ws' : List Word) (c' : Option ℚ) (r' : List ℕ) (q : ℚ),
      sequence_go ws cursor rejects lastPos idxs = Except.ok (ws', c', r') →
      cursor = some q → ∃ x, c' = some x ∧ q ≤ x := by
  induction idxs with
  | nil =>
    intro ws cursor rejects lastPos ws' c' r' q h hq
    simp only [sequence_go, Except.ok.injEq, Prod.mk.injEq] at h
    exact ⟨q, by rw [← h.2.1, hq], le_refl q⟩
  | cons i rest ih =>
    intro ws cursor rejects lastPos ws' c' r' q h hq
    subst hq
    simp only [sequence_go, Option.getD_some] at h
    split at h
    · exact Except.noConfusion h
    · split at h
      · rename_i hcond
        simp only [Bool.and_eq_true, decide_eq_true_eq, ge_iff_le] at hcond
        obtain ⟨x, hx, hle⟩ := ih _ _ _ _ _ _ _ _ h rfl
        exact ⟨x, hx, le_trans hcond.2 hle⟩
      · exact ih _ _ _ _ _ _ _ _ h rfl
    · split at h
      · rename_i hcond
        simp only [Bool.and_eq_true, decide_eq_true_eq, ge_iff_le] at hcond
        obtain ⟨x, hx, hle⟩ := ih _ _ _ _ _ _ _ _ h rfl
        exact ⟨x, hx, le_trans hcond.2 hle⟩
      · exact ih _ _ _ _ _ _ _ _ h rfl
    · split at h
      · simp only [Except.ok.injEq, Prod.mk.injEq] at h
        exact ⟨q, by rw [← h.2.1], le_refl q⟩
      · exact Except.noConfusion h
    · split at h
      · split at h
        · rename_i hcond
          simp only [Bool.and_eq_true, decide_eq_true_eq, ge_iff_le] at hcond
          split at h
          · obtain ⟨x, hx, hle⟩ := ih _ _ _ _ _ _ _ _ h rfl
            exact ⟨x, hx, le_trans hcond.2 hle⟩
          · exact Except.noConfusion h
        · split at h
          · exact ih _ _ _ _ _ _ _ _ h rfl
          · split at h
            · exact ih _ _ _ _ _ _ _ _ h rfl
            · exact Except.noConfusion h
      · exact Except.noConfusion h

/-- C2 amended: the cursor carried across lines by the Sequencer never
decreases over the whole line loop — every newly accepted timestamp is at
least every previously accepted one — although per-word monotonicity
`w[i+1].start >= w[i].start` of the final sequence can fail (see the
counterexample) when a boundary-anchored word of a line overlapping the
previous line keeps its line-anchored start without being spliced. -/
theorem sequencer_cursor_monotone (gs : List (List ℕ)) :
    ∀ (ws : List Word) (cursor : Option ℚ) (ws' : List Word) (c' : Option ℚ) (q x : ℚ),
      sequence_lines ws cursor gs = Except.ok (ws', c') →
      cursor = some q → c' = some x → q ≤ x := by
  induction gs with
  | nil =>
    intro ws cursor ws' c' q x h hq hx
    simp only [sequence_lines, Except.ok.injEq, Prod.mk.injEq] at h
    rw [← h.2, hq] at hx
    exact le_of_eq (Option.some.injEq _ _ ▸ hx)
  | cons g gs ih =>
    intro ws cursor ws' c' q x h hq hx
    simp only [sequence_lines] at h
    split at h
    · rename_i ws2 c2 rj hgo
      split at h
      · rename_i ws3 hsp
        obtain ⟨y, hy, hqy⟩ := sequence_go_cursor_mono g _ _ _ _ _ _ _ q hgo hq
        exact le_trans hqy (ih _ _ _ _ y x h hy hx)
      · exact absurd h (by simp)
    · exact absurd h (by simp)

/-- C2 amended, witness: a single line whose lone `LineStart` word sits at
`7` advances an incoming cursor of `1` to `7`, and `1 ≤ 7`. -/
theorem sequencer_cursor_monotone_witness :
    sequence_lines [word_line_start_late] (some 1) [[0]] =
      Except.ok ([word_line_start_late], some 7) ∧ (1 : ℚ) ≤ 7 := by
  have h : sequence_lines [word_line_start_late] (some 1) [[0]] =
      Except.ok ([word_line_start_late], some 7) := by
    norm_num +decide [sequence_lines, sequence_go, splice_times, line_contained,
      neighbor_contained, next, previous, word_line_start_late, List.getD, List.getLastD]
  exact ⟨h, sequencer_cursor_monotone [[0]] [word_line_start_late] (some 1)
    [word_line_start_late] (some 7) 1 7 h rfl rfl⟩

/-- Anchor fidelity holds for the default (junk) word. -/
theorem anchor_ok_default : anchor_ok (default : Word) := by
  constructor <;> intro h <;> exact absurd h (by simp [default])

/-- Anchor fidelity holds for every freshly constructed word: the Initial
Estimator pins `LineStart` words to `line.start` and `LineEnd` words to
`line.end`. -/
theorem anchor_ok_init (text : List Char) (timestamps : List ℚ) (number : ℕ)
    (line : SttLine) (ov : WordBoundaryOverride) :
    anchor_ok (sttword_init text timestamps number line ov) := by
  cases ov <;>
    simp [sttword_init, anchor_ok, correction_applied]

/-- Anchor fidelity is preserved by `extend`: a non-`LineEnd` continuation
only changes the text, and a `LineEnd` continuation re-anchors the word to
its own line's end with the `LineEnd` role. -/
theorem anchor_ok_extend (w : Word) (text : List Char) (timestamps : List ℚ)
    (ov : WordBoundaryOverride) (h : anchor_ok w) :
    anchor_ok (extend w text timestamps ov) := by
  unfold extend
  split
  · constructor
    · intro hlb
      exact absurd hlb (by simp [update_boundary])
    · intro _
      simp [update_boundary, correction_applied]
  · constructor
    · intro hlb
      rcases h.1 hlb with ⟨h1, h2, h3⟩
      exact ⟨h1, h2, h3⟩
    · intro hlb
      rcases h.2 hlb with ⟨h1, h2, h3⟩
      exact ⟨h1, h2, h3⟩

/-- Anchor fidelity holds (vacuously) for every word the Splicer rewrites:
such words carry the `Sequencer` role. -/
theorem anchor_ok_update_sequencer (w : Word) (s e : ℚ) :
    anchor_ok (update_boundary w s e WordBoundaryOverride.Sequencer) := by
  constructor <;> intro h <;> exact absurd h (by simp [update_boundary])

/-- Anchor fidelity of a whole word list is preserved by one Assembler
step. -/
theorem anchor_ok_assemble_step (ws ws2 : List Word) (current c2 : Option ℕ)
    (line : SttLine) (j count : ℕ) (frag : SttFragment)
    (hall : ∀ w ∈ ws, anchor_ok w)
    (h : assemble_step ws current line j count frag = Except.ok (ws2, c2)) :
    ∀ w ∈ ws2, anchor_ok w := by
  unfold assemble_step at h
  split at h
  · exact Except.noConfusion h
  · split at h
    · exact Except.noConfusion h
    · split at h
      · simp only [Except.ok.injEq, Prod.mk.injEq] at h
        intro w hw
        rw [← h.1] at hw
        rcases List.mem_append.mp hw with hmem | hmem
        · exact hall w hmem
        · rw [List.mem_singleton.mp hmem]
          exact anchor_ok_init _ _ _ _ _
      · split at h
        · simp only [Except.ok.injEq, Prod.mk.injEq] at h
          intro w hw
          rw [← h.1] at hw
          rcases List.mem_or_eq_of_mem_set hw with hmem | heq
          · exact hall w hmem
          · rw [heq]
            rcases getD_mem_or_eq ws _ (default : Word) with hm | hd
            · exact anchor_ok_extend _ _ _ _ (hall _ hm)
            · exact anchor_ok_extend _ _ _ _ (by rw [hd]; exact anchor_ok_default)
        · simp only [Except.ok.injEq, Prod.mk.injEq] at h
          intro w hw
          rw [← h.1] at hw
          exact hall w hw

/-- Anchor fidelity of a whole word list is preserved by the Assembler's
fragment loop. -/
theorem anchor_ok_assemble_frags (frags : List SttFragment) :
    ∀ (ws ws2 : List Word) (current c2 : Option ℕ) (line : SttLine) (count j : ℕ),
      (∀ w ∈ ws, anchor_ok w) →
      assemble_frags ws current line count j frags = Except.ok (ws2, c2) →
      ∀ w ∈ ws2, anchor_ok w := by
  induction frags with
  | nil =>
    intro ws ws2 current c2 line count j hall h
    simp only [assemble_frags, Except.ok.injEq, Prod.mk.injEq] at h
    rw [← h.1]
    exact hall
  | cons f fs ih =>
    intro ws ws2 current c2 line count j hall h
    simp only [assemble_frags] at h
    split at h
    · rename_i wsx cx hstep
      exact ih _ _ _ _ _ _ _ (anchor_ok_assemble_step _ _ _ _ _ _ _ _ hall hstep) h
    · exact Except.noConfusion h

/-- Anchor fidelity of a whole word list is preserved by the Assembler's
segment loop. -/
theorem anchor_ok_assemble_segs (segs : List SttSegment) :
    ∀ (ws ws2 : List Word) (current c2 : Option ℕ) (i : ℕ),
      (∀ w ∈ ws, anchor_ok w) →
      assemble_segs ws current i segs = Except.ok (ws2, c2) →
      ∀ w ∈ ws2, anchor_ok w := by
  induction segs with
  | nil =>
    intro ws ws2 current c2 i hall h
    simp only [assemble_segs, Except.ok.injEq, Prod.mk.injEq] at h
    rw [← h.1]
    exact hall
  | cons s ss ih =>
    intro ws ws2 current c2 i hall h
    simp only [assemble_segs] at h
    split at h
    · rename_i wsx cx hfr
      exact ih _ _ _ _ _ (anchor_ok_assemble_frags _ _ _ _ _ _ _ _ hall hfr) h
    · exact Except.noConfusion h

/-- Anchor fidelity of a whole word list is preserved by the Splicer's
assignment loop (it only writes `Sequencer`-role words). -/
theorem anchor_ok_splice_go (run : List ℕ) :
    ∀ (ws : List Word) (c s : ℚ), (∀ w ∈ ws, anchor_ok w) →
      ∀ w ∈ splice_go ws c s run, anchor_ok w := by
  induction run with
  | nil =>
    intro ws c s hall
    exact hall
  | cons p rest ih =>
    intro ws c s hall
    refine ih _ _ _ ?_
    intro w hw
    rcases List.mem_or_eq_of_mem_set hw with hmem | heq
    · exact hall w hmem
    · rw [heq]
      exact anchor_ok_update_sequencer _ _ _

/-- Anchor fidelity of a whole word list is preserved by the Splicer. -/
theorem anchor_ok_splice_times (ws ws2 : List Word) (run : List ℕ)
    (hall : ∀ w ∈ ws, anchor_ok w)
    (h : splice_times ws run = Except.ok ws2) :
    ∀ w ∈ ws2, anchor_ok w := by
  cases run with
  | nil =>
    simp only [splice_times, Except.ok.injEq] at h
    rw [← h]
    exact hall
  | cons p0 rest =>
    simp only [splice_times] at h
    split at h
    · simp only [Except.ok.injEq] at h
      rw [← h]
      exact anchor_ok_splice_go _ _ _ _ hall
    · exact Except.noConfusion h

/-- Anchor fidelity of a whole word list is preserved by the Sequencer's
inner word loop. -/
theorem anchor_ok_sequence_go (idxs : List ℕ) :
    ∀ (ws : List Word) (cursor : Option ℚ) (rejects : List ℕ) (lastPos : ℕ)
      (ws' : List Word) (c' : Option ℚ) (r' : List ℕ),
      (∀ w ∈ ws, anchor_ok w) →
      sequence_go ws cursor rejects lastPos idxs = Except.ok (ws', c', r') →
      ∀ w ∈ ws', anchor_ok w := by
  induction idxs with
  | nil =>
    intro ws cursor rejects lastPos ws' c' r' hall h
    simp only [sequence_go, Except.ok.injEq, Prod.mk.injEq] at h
    rw [← h.1]
    exact hall
  | cons i rest ih =>
    intro ws cursor rejects lastPos ws' c' r' hall h
    simp only [sequence_go] at h
    split at h
    · exact Except.noConfusion h
    · split at h
      · exact ih _ _ _ _ _ _ _ hall h
      · exact ih _ _ _ _ _ _ _ hall h
    · split at h
      · exact ih _ _ _ _ _ _ _ hall h
      · exact ih _ _ _ _ _ _ _ hall h
    · split at h
      · simp only [Except.ok.injEq, Prod.mk.injEq] at h
        rw [← h.1]
        exact hall
      · exact Except.noConfusion h
    · split at h
      · split at h
        · split at h
          · rename_i ws2 hsp
            exact ih _ _ _ _ _ _ _ (anchor_ok_splice_times _ _ _ hall hsp) h
          · exact Except.noConfusion h
        · split at h
          · exact ih _ _ _ _ _ _ _ hall h
          · split at h
            · rename_i ws2 hsp
              exact ih _ _ _ _ _ _ _ (anchor_ok_splice_times _ _ _ hall hsp) h
            · exact Except.noConfusion h
      · exact Except.noConfusion h

/-- Anchor fidelity of a whole word list is preserved by the Sequencer's
line loop. -/
theorem anchor_ok_sequence_lines (gs : List (List ℕ)) :
    ∀ (ws : List Word) (cursor : Option ℚ) (ws' : List Word) (c' : Option ℚ),
      (∀ w ∈ ws, anchor_ok w) →
      sequence_lines ws cursor gs = Except.ok (ws', c') →
      ∀ w ∈ ws', anchor_ok w := by
  induction gs with
  | nil =>
    intro ws cursor ws' c' hall h
    simp only [sequence_lines, Except.ok.injEq, Prod.mk.injEq] at h
    rw [← h.1]
    exact hall
  | cons g gs ih =>
    intro ws cursor ws' c' hall h
    simp only [sequence_lines] at h
    split at h
    · rename_i ws2 c2 rj hgo
      split at h
      · rename_i ws3 hsp
        exact ih _ _ _ _ (anchor_ok_splice_times _ _ _
          (anchor_ok_sequence_go _ _ _ _ _ _ _ _ hall hgo) hsp) h
      · exact Except.noConfusion h
    · exact Except.noConfusion h

/-- C4: anchor fidelity — after assembly and initial estimation, and still
after the full pipeline (Sequencer and Splicer included), every word whose
role is `LineStart` sits exactly at `start = end = line.start` and every
word whose role is `LineEnd` sits exactly at `start = end = line.end`,
with `correction_applied = false`; boundary-role words are never put into
a reject run and never spliced (the Splicer writes only `Sequencer`-role
words). -/
theorem anchor_fidelity (segs : List SttSegment) :
    (∀ (ws : List Word) (cur : Option ℕ),
      assemble_segs [] none 0 segs = Except.ok (ws, cur) → ∀ w ∈ ws, anchor_ok w) ∧
    (∀ ws : List Word,
      load_whisper_results segs = Except.ok ws → ∀ w ∈ ws, anchor_ok w) := by
  constructor
  · intro ws cur h
    exact anchor_ok_assemble_segs segs [] ws none cur 0 (by simp) h
  · intro ws h
    unfold load_whisper_results at h
    split at h
    · rename_i wsx cx hasm
      have hall := anchor_ok_assemble_segs segs [] wsx none cx 0 (by simp) hasm
      unfold sequence at h
      split at h
      · rename_i ws2 c2 hsl
        simp only [Except.ok.injEq] at h
        rw [← h]
        exact anchor_ok_sequence_lines _ _ _ _ _ hall hsl
      · exact Except.noConfusion h
    · exact Except.noConfusion h

/-- C4 witness: on a concrete two-word line, the pipeline succeeds, the
first word's role is `LineStart`, and by `anchor_fidelity` it sits at its
line's start with no correction applied. -/
theorem anchor_fidelity_witness :
    ((pipeEval segs_anchor_line).getD 0 default).boundary_override =
      WordBoundaryOverride.LineStart ∧
    ((pipeEval segs_anchor_line).getD 0 default).start =
      ((pipeEval segs_anchor_line).getD 0 default).line_start ∧
    correction_applied ((pipeEval segs_anchor_line).getD 0 default) = false := by
  have h : load_whisper_results segs_anchor_line = Except.ok (pipeEval segs_anchor_line) := by
    norm_num +decide [segs_anchor_line, pipeEval, load_whisper_results, assemble_segs,
      assemble_frags, assemble_step, sttword_init, extend, update_boundary, get_override,
      reject_outliers, mean, variance, median, sortQ, insertSorted, pyStrip, isPySpace,
      sequence, group_by_line, groupByKey, sequence_lines, sequence_go, splice_times,
      splice_go, next, previous, line_contained, neighbor_contained, fabs, max_def,
      List.range_succ, Except.isOk, Except.toBool, List.getD, List.getLastD, Except.toOption]
  have hov : ((pipeEval segs_anchor_line).getD 0 default).boundary_override =
      WordBoundaryOverride.LineStart := by
    norm_num +decide [segs_anchor_line, pipeEval, load_whisper_results, assemble_segs,
      assemble_frags, assemble_step, sttword_init, extend, update_boundary, get_override,
      reject_outliers, mean, variance, median, sortQ, insertSorted, pyStrip, isPySpace,
      sequence, group_by_line, groupByKey, sequence_lines, sequence_go, splice_times,
      splice_go, next, previous, line_contained, neighbor_contained, fabs, max_def,
      List.range_succ, Except.isOk, Except.toBool, List.getD, List.getLastD, Except.toOption]
  have hlen : 0 < (pipeEval segs_anchor_line).length := by
    norm_num +decide [segs_anchor_line, pipeEval, load_whisper_results, assemble_segs,
      assemble_frags, assemble_step, sttword_init, extend, update_boundary, get_override,
      reject_outliers, mean, variance, median, sortQ, insertSorted, pyStrip, isPySpace,
      sequence, group_by_line, groupByKey, sequence_lines, sequence_go, splice_times,
      splice_go, next, previous, line_contained, neighbor_contained, fabs, max_def,
      List.range_succ, Except.isOk, Except.toBool, List.getD, List.getLastD, Except.toOption]
  have hmem : (pipeEval segs_anchor_line).getD 0 default ∈ pipeEval segs_anchor_line :=
    getD_mem_of_lt _ 0 default hlen
  have hmain := ((anchor_fidelity segs_anchor_line).2 (pipeEval segs_anchor_line) h
    _ hmem).1 hov
  exact ⟨hov, hmain.2.1, hmain.1⟩

/-- Text of an extended word: the continuation text is appended verbatim,
whatever the override does to the boundary. -/
theorem extend_text (w : Word) (t : List Char) (ts : List ℚ) (ov : WordBoundaryOverride) :
    (extend w t ts ov).text = w.text ++ t := by
  unfold extend
  split
  · rfl
  · rfl

/-- C6 counterexample: a continuation fragment arriving before any word
exists is silently dropped — the pipeline succeeds (no error is raised)
and the fragment leaves no trace in the output. -/
theorem orphan_continuation_counterexample :
    (load_whisper_results segs_orphan_continuation).isOk = true ∧
    (pipeEval segs_orphan_continuation).map (fun w => w.text) = [['b']] := by
  refine ⟨?_, ?_⟩ <;>
  norm_num +decide [segs_orphan_continuation, pipeEval, load_whisper_results, assemble_segs,
    assemble_frags, assemble_step, sttword_init, extend, update_boundary, get_override,
    reject_outliers, mean, variance, median, sortQ, insertSorted, pyStrip, isPySpace,
    sequence, group_by_line, groupByKey, sequence_lines, sequence_go, splice_times,
    splice_go, next, previous, line_contained, neighbor_contained, fabs, max_def,
    List.range_succ, Except.isOk, Except.toBool, List.getD, List.getLastD, Except.toOption]

/-- C6 amended: a continuation fragment (nonempty text, nonempty samples)
arriving while no current word exists is skipped silently: the Assembler
step returns the word list unchanged, with no error and no substitute
word. -/
theorem orphan_continuation_skipped (ws : List Word) (line : SttLine) (j count : ℕ)
    (t : List Char) (ts : List ℚ) (ch : Char) (rest : List Char)
    (ht : t = ch :: rest) (hts : ts ≠ [])
    (hcont : ¬(ch = ' ' ∨ (ch = '.' ∧ rest ≠ []))) :
    assemble_step ws none line j count ⟨t, ts⟩ = Except.ok (ws, none) := by
  subst ht
  simp only [assemble_step, if_neg hts, if_neg hcont]

/-- C6 amended, witness: the lone continuation fragment `"x"` with no
current word leaves the (empty) word list untouched and raises nothing. -/
theorem orphan_continuation_skipped_witness :
    assemble_step [] none ⟨0, 10, 0⟩ 0 1 ⟨['x'], [1]⟩ = Except.ok ([], none) :=
  orphan_continuation_skipped [] ⟨0, 10, 0⟩ 0 1 ['x'] [1] 'x' [] rfl (by simp) (by decide)

/-- C7: each contract violation fails loudly — a `Sequencer`-role word fed
back as Sequencer input raises the resequencing error, a `LineEnd`-role
word not positioned last in its line raises the line-end assertion, a
splice run with no left anchor raises the Splicer's anchor assertion, and
a reject run at the very start of the whole sequence (line opening with a
continuation fragment) aborts the pipeline with the sandwich assertion. -/
theorem contract_violations_fail_loudly :
    sequence [word_sequencer_input] = Except.error SttError.resequencing ∧
    sequence [word_line_end_first, word_interior] = Except.error SttError.lineEndNotLast ∧
    splice_times [word_anchor_left, word_interior] [0] =
      Except.error SttError.spliceAnchorMissing ∧
    load_whisper_results segs_leading_reject =
      Except.error SttError.undefinedNotSandwiched := by
  refine ⟨?_, ?_, ?_, ?_⟩ <;>
  norm_num +decide [segs_leading_reject, word_sequencer_input, word_line_end_first,
    word_interior, word_anchor_left, load_whisper_results, assemble_segs, assemble_frags,
    assemble_step, sttword_init, extend, update_boundary, get_override, reject_outliers,
    mean, variance, median, sortQ, insertSorted, pyStrip, isPySpace, sequence,
    group_by_line, groupByKey, sequence_lines, sequence_go, splice_times, splice_go, next,
    previous, line_contained, neighbor_contained, fabs, max_def, List.range_succ,
    Except.isOk, Except.toBool, List.getD, List.getLastD, Except.toOption]

/-- C8: a fragment (nonempty text, nonempty samples) makes the Assembler
produce a new word exactly when its text begins with the space character
or begins with a dot followed by more text; otherwise — given a current
word — it is a continuation whose text is appended verbatim to that
word. -/
theorem fragment_new_word_rule (ws : List Word) (cur : Option ℕ) (c : ℕ) (line : SttLine)
    (j count : ℕ) (t : List Char) (ts : List ℚ) (ch : Char) (rest : List Char)
    (ht : t = ch :: rest) (hts : ts ≠ []) (hcur : cur = some c) (hc : c < ws.length) :
    ((assemble_step ws cur line j count ⟨t, ts⟩).toOption.map (fun st => st.1.length) =
        some (ws.length + 1) ↔ (ch = ' ' ∨ (ch = '.' ∧ rest ≠ []))) ∧
    (¬(ch = ' ' ∨ (ch = '.' ∧ rest ≠ [])) →
      (assemble_step ws cur line j count ⟨t, ts⟩).toOption.map
          (fun st => ((st.1.getD c default).text, st.2)) =
        some ((ws.getD c default).text ++ t, some c)) := by
  subst ht hcur
  by_cases hcond : ch = ' ' ∨ (ch = '.' ∧ rest ≠ [])
  · refine ⟨iff_of_true ?_ hcond, fun hno => absurd hcond hno⟩
    simp [assemble_step, if_neg hts, if_pos hcond, Except.toOption]
  · constructor
    · refine iff_of_false ?_ hcond
      simp only [assemble_step, if_neg hts, if_neg hcond, Except.toOption, Option.map_some',
        Option.some.injEq, List.length_set]
      exact fun hlen => Nat.succ_ne_self ws.length hlen.symm
    · intro _
      simp only [assemble_step, if_neg hts, if_neg hcond, Except.toOption, Option.map_some',
        Option.some.injEq, Prod.mk.injEq]
      exact ⟨by rw [getD_set_self ws c _ _ hc, extend_text], trivial⟩

/-- C8 witness: with current word at position `0`, the fragment `","`
(no leading space, not a long dot fragment) is appended verbatim. -/
theorem fragment_new_word_rule_witness :
    (assemble_step [word_interior] (some 0) ⟨0, 10, 0⟩ 1 3 ⟨[','], [1]⟩).toOption.map
        (fun st => ((st.1.getD 0 default).text, st.2)) =
      some (word_interior.text ++ [','], some 0) := by
  have h := (fragment_new_word_rule [word_interior] (some 0) 0 ⟨0, 10, 0⟩ 1 3 [','] [1]
    ',' [] rfl (by simp) rfl (by simp)).2 (by decide)
  simpa using h

/-- C9 counterexample: the continuation state survives a line boundary —
a line consisting of the single continuation fragment `","` merges it into
the final word of the previous line, so the output still has one word,
with text `"a,"`, belonging to line `0`. -/
theorem cross_line_merge_counterexample :
    (load_whisper_results segs_cross_line_merge).isOk = true ∧
    (pipeEval segs_cross_line_merge).map (fun w => w.text) = [['a', ',']] ∧
    ((pipeEval segs_cross_line_merge).getD 0 default).line_number = 0 := by
  refine ⟨?_, ?_, ?_⟩ <;>
  norm_num +decide [segs_cross_line_merge, pipeEval, load_whisper_results, assemble_segs,
    assemble_frags, assemble_step, sttword_init, extend, update_boundary, get_override,
    reject_outliers, mean, variance, median, sortQ, insertSorted, pyStrip, isPySpace,
    sequence, group_by_line, groupByKey, sequence_lines, sequence_go, splice_times,
    splice_go, next, previous, line_contained, neighbor_contained, fabs, max_def,
    List.range_succ, Except.isOk, Except.toBool, List.getD, List.getLastD, Except.toOption]

/-- C9 amended: the Assembler's current-word state is global to the whole
traversal, not scoped to one line: a continuation fragment is merged into
the current word even when that word belongs to a different (earlier)
line than the fragment. -/
theorem continuation_merges_across_lines (ws : List Word) (c : ℕ) (line : SttLine)
    (j count : ℕ) (t : List Char) (ts : List ℚ) (ch : Char) (rest : List Char)
    (ht : t = ch :: rest) (hts : ts ≠ []) (hc : c < ws.length)
    (hcont : ¬(ch = ' ' ∨ (ch = '.' ∧ rest ≠ [])))
    (hline : (ws.getD c default).line_number ≠ line.number) :
    assemble_step ws (some c) line j count ⟨t, ts⟩ =
      Except.ok (ws.set c (extend (ws.getD c default) t ts (get_override j count)),
        some c) := by
  subst ht
  simp only [assemble_step, if_neg hts, if_neg hcont]

/-- C9 amended, witness: a continuation `","` arriving in line `1` is
merged into the current word, which belongs to line `0`. -/
theorem continuation_merges_across_lines_witness :
    assemble_step [word_interior] (some 0) ⟨3, 8, 1⟩ 0 1 ⟨[','], [1]⟩ =
      Except.ok ([word_interior].set 0
        (extend word_interior [','] [1] (get_override 0 1)), some 0) := by
  have h := continuation_merges_across_lines [word_interior] 0 ⟨3, 8, 1⟩ 0 1 [','] [1]
    ',' [] rfl (by simp) (by simp) (by decide) (by simp [word_interior])
  simpa using h

/-- C10: a new word's stored text is its first fragment's text with
leading and trailing whitespace stripped, while a continuation fragment's
text is appended with no stripping at all. -/
theorem word_text_strip_and_verbatim (ws : List Word) (cur : Option ℕ) (line : SttLine)
    (j count : ℕ) (t : List Char) (ts : List ℚ) (ch : Char) (rest : List Char)
    (ht : t = ch :: rest) (hts : ts ≠ []) :
    ((ch = ' ' ∨ (ch = '.' ∧ rest ≠ [])) →
      (assemble_step ws cur line j count ⟨t, ts⟩).toOption.map
          (fun st => (st.1.getD ws.length default).text) = some (pyStrip t)) ∧
    (∀ c : ℕ, ¬(ch = ' ' ∨ (ch = '.' ∧ rest ≠ [])) → cur = some c → c < ws.length →
      (assemble_step ws cur line j count ⟨t, ts⟩).toOption.map
          (fun st => (st.1.getD c default).text) =
        some ((ws.getD c default).text ++ t)) := by
  subst ht
  constructor
  · intro hcond
    simp only [assemble_step, if_neg hts, if_pos hcond, Except.toOption, Option.map_some',
      Option.some.injEq]
    rw [getD_concat_self]
    rfl
  · intro c hcond hcur hc
    subst hcur
    simp only [assemble_step, if_neg hts, if_neg hcond, Except.toOption, Option.map_some',
      Option.some.injEq]
    rw [getD_set_self ws c _ _ hc, extend_text]

/-- C10 witness: the fragment `" a"` starts a new word whose stored text
is `"a"` — the marker space is stripped. -/
theorem word_text_strip_and_verbatim_witness :
    (assemble_step [] none ⟨0, 10, 0⟩ 0 2 ⟨[' ', 'a'], [1]⟩).toOption.map
        (fun st => (st.1.getD 0 default).text) = some ['a'] := by
  have h := (word_text_strip_and_verbatim [] none ⟨0, 10, 0⟩ 0 2 [' ', 'a'] [1] ' ' ['a']
    rfl (by simp)).1 (Or.inl rfl)
  simpa [pyStrip, isPySpace, List.dropWhile] using h

end Positor
